import Mathlib

/-!
Shallow embedding of the push-based stream engine in
`src/SciAnalysis/interfaces/streams.py`.

Each combinator's `update` method is embedded as a pure state-transition
function: the mutable per-node state (accumulator slot, buffers, seen-set,
watermark, cache) is passed explicitly, and the value handed to
`self.emit(...)` is returned as an explicit emission (an `Option` for nodes
that emit at most once per update).  Driver functions fold an input sequence
through the transition, collecting the emissions a downstream sink would see.
-/

namespace SciStreams

/-- The accumulator slot of a `scan` node: either the distinguished
`no_default` sentinel (module constant `no_default = '--no-default--'`,
used when `start` is omitted) or a held value. -/
inductive AccState (α : Type) where
  | noDefault : AccState α
  | val : α → AccState α
deriving DecidableEq, Repr

/-- `scan.update` (streams.py lines 407-424).  The node's callable `func`
receives, in Python, either the raw state slot (raw path) or an actual
value (non-raw path, where `_stream_accumulate` short-circuits on the
sentinel before `func` is reached); it is therefore embedded with domain
`AccState α`.  Returns (emitted value, new state). -/
def scanUpdate {α : Type} (raw : Bool) (func : AccState α → α → α)
    (state : AccState α) (x : α) : α × AccState α :=
  let result :=
    if raw then
      -- `result = self.func(self.state, x)`: the state slot, sentinel
      -- included, is passed to `func` directly.
      func state x
    else
      -- `_stream_accumulate(self.state, x, func=self.func)` (lines 693-714):
      -- `if prevobj is no_default: return nextobj` else `func(prevobj, nextobj)`
      -- (base dispatch).
      match state with
      | AccState.noDefault => x
      | AccState.val s => func (AccState.val s) x
  (result, AccState.val result)

/-- Push a whole sequence through a `scan` node, collecting the values it
emits (in order). -/
def scanRun {α : Type} (raw : Bool) (func : AccState α → α → α)
    (state : AccState α) : List α → List α
  | [] => []
  | x :: xs =>
    let p := scanUpdate raw func state x
    p.1 :: scanRun raw func p.2 xs

/-- The `(p, n) -> p + n` accumulation function of the spec's example, as the
scan node's Python callable sees it (its first argument is the state slot;
the sentinel branch is never reached on the non-raw path). -/
def addFunc : AccState Nat → Nat → Nat
  | AccState.noDefault, _ => 0
  | AccState.val s, n => s + n

/-- A state-sensitive callable used to observe whether `func` is consulted
on the first raw-mode call: it returns 99 on the sentinel. -/
def probeFunc : AccState Nat → Nat → Nat
  | AccState.noDefault, _ => 99
  | AccState.val s, n => s + n

/-- `Stream.emit` (streams.py lines 63-76): each listener's `update` returns
either a Python list of results or a single (possibly `None`) result. -/
inductive UpdRes (α : Type) where
  | listRes : List (Option α) → UpdRes α
  | singleRes : Option α → UpdRes α
deriving DecidableEq, Repr

/-- The `for parent in self.parents` loop body of `emit`: `extend` a
list-typed result, `append` any other. -/
def collectResults {α : Type} : List (UpdRes α) → List (Option α)
  | [] => []
  | UpdRes.listRes l :: rs => l ++ collectResults rs
  | UpdRes.singleRes r :: rs => r :: collectResults rs

/-- `Stream.emit`: call each listener's update on `x` in registration order,
flatten list-typed results one level, and drop `None` elements
(`[element for element in result if element is not None]`). -/
def emitRun {α β : Type} (listeners : List (β → UpdRes α)) (x : β) :
    List (Option α) :=
  (collectResults (listeners.map (fun f => f x))).filter (fun e => e.isSome)

/-- One listener result flattened one level: a list-typed result contributes
its elements, any other result contributes itself. -/
def flattenOne {α : Type} : UpdRes α → List (Option α)
  | UpdRes.listRes l => l
  | UpdRes.singleRes r => [r]

theorem collectResults_eq_join_map {α : Type} (rs : List (UpdRes α)) :
    collectResults rs = (rs.map flattenOne).flatten := by
  induction rs with
  | nil => rfl
  | cons r rs ih =>
    cases r with
    | listRes l => simp [collectResults, flattenOne, ih]
    | singleRes v => simp [collectResults, flattenOne, ih]

/-- `zip.update` (streams.py lines 537-554): append `x` to buffer `i`; if
that buffer just became non-empty (length 1) and every buffer is non-empty,
pop the head of every buffer to form the ordered tuple of heads.  A payload
type exposing `__stream_merge__` is modelled by `sm = some f` (`f` standing
for the bound method, so `f t0 rest` is `t0.__stream_merge__(*rest)`); the
code then replaces a non-empty head tuple by
`tup[0].__stream_merge__(*tup[1:])` before emitting, so the emission is
either the plain tuple (`Sum.inl`) or the merged value (`Sum.inr`).  The
backpressure branch (`len(L) > self.maxsize` → `condition.wait()`) emits
nothing and leaves the buffers as appended, like the model's else-branch.
Returns (new buffers, emitted value if any). -/
def zipUpdate {α μ : Type} [Inhabited α] (sm : Option (α → List α → μ))
    (buffers : List (List α)) (i : Nat) (x : α) :
    List (List α) × Option (List α ⊕ μ) :=
  let bufs := buffers.set i ((buffers.getD i []) ++ [x])
  if ((bufs.getD i []).length == 1 && bufs.all (fun b => !b.isEmpty)) then
    match sm, bufs.map List.headI with
    | some f, t0 :: rest => (bufs.map List.tail, some (Sum.inr (f t0 rest)))
    | _, tup => (bufs.map List.tail, some (Sum.inl tup))
  else
    (bufs, none)

/-- A concrete `__stream_merge__` implementation used to observe the merge
branch: the head element absorbs the rest by summation. -/
def addMerge : Nat → List Nat → Nat :=
  fun t0 rest => t0 + rest.sum

/-- One round of feeding a 2-input zip: one value to input 0, then one to
input 1, collecting any emissions along the way. -/
def zipRound {α μ : Type} [Inhabited α] (sm : Option (α → List α → μ))
    (buffers : List (List α)) (p : α × α) :
    List (List α) × List (List α ⊕ μ) :=
  let s0 := zipUpdate sm buffers 0 p.1
  let s1 := zipUpdate sm s0.1 1 p.2
  (s1.1, s0.2.toList ++ s1.2.toList)

/-- Feed k rounds into a 2-input zip, one value per input per round. -/
def zipRun2 {α μ : Type} [Inhabited α] (sm : Option (α → List α → μ))
    (buffers : List (List α)) : List (α × α) → List (List α ⊕ μ)
  | [] => []
  | p :: ps =>
    let s := zipRound sm buffers p
    s.2 ++ zipRun2 sm s.1 ps

/-- `partition.update` (streams.py lines 427-439): append to the buffer;
when the buffer reaches length exactly `n`, emit it as a tuple and reset
the buffer.  Returns (new buffer, emitted group if any). -/
def partitionUpdate {α : Type} (n : Nat) (buffer : List α) (x : α) :
    List α × Option (List α) :=
  let buf := buffer ++ [x]
  if buf.length = n then ([], some buf) else (buf, none)

/-- Push a sequence through a `partition` node; returns (final buffer,
emitted groups in order). -/
def partitionRun {α : Type} (n : Nat) (buffer : List α) :
    List α → List α × List (List α)
  | [] => (buffer, [])
  | x :: xs =>
    let s := partitionUpdate n buffer x
    let r := partitionRun n s.1 xs
    (r.1, s.2.toList ++ r.2)

/-- `sliding_window.update` (streams.py lines 442-453): the buffer is a
`deque(maxlen=n)`, so appending drops elements from the left down to
capacity `n`; the window is emitted whenever the buffer's length equals
`n`.  Returns (new buffer, emitted window if any). -/
def slidingUpdate {α : Type} (n : Nat) (buffer : List α) (x : α) :
    List α × Option (List α) :=
  let buf := (buffer ++ [x]).drop (buffer.length + 1 - n)
  if buf.length = n then (buf, some buf) else (buf, none)

/-- Push a sequence through a `sliding_window` node; returns (final buffer,
emitted windows in order). -/
def slidingRun {α : Type} (n : Nat) (buffer : List α) :
    List α → List α × List (List α)
  | [] => (buffer, [])
  | x :: xs =>
    let s := slidingUpdate n buffer x
    let r := slidingRun n s.1 xs
    (r.1, s.2.toList ++ r.2)

/-- `unique.update` (streams.py lines 623-637), unbounded history: `seen`
is a plain dict keyed by `key(x)`; a key already present emits nothing, a
fresh key is recorded and `x` is emitted.  The seen-set is modelled as the
list of recorded keys, most recent first. -/
def uniqueUpdate {α κ : Type} [DecidableEq κ] (key : α → κ) (seen : List κ)
    (x : α) : List κ × Option α :=
  if key x ∈ seen then (seen, none) else (key x :: seen, some x)

/-- `unique.update` with bounded history `h`: `seen` is a `zict.LRU(h, ...)`.
The node only ever tests membership and inserts (never reads back), so
recency order equals insertion order and eviction drops the oldest
inserted key once the bound is exceeded: keep the `h` most recent keys. -/
def uniqueUpdateB {α κ : Type} [DecidableEq κ] (h : Nat) (key : α → κ)
    (seen : List κ) (x : α) : List κ × Option α :=
  if key x ∈ seen then (seen, none) else ((key x :: seen).take h, some x)

/-- Push a sequence through an unbounded-history `unique` node; returns
(final seen-set, emitted values in order). -/
def uniqueRun {α κ : Type} [DecidableEq κ] (key : α → κ) (seen : List κ) :
    List α → List κ × List α
  | [] => (seen, [])
  | x :: xs =>
    let s := uniqueUpdate key seen x
    let r := uniqueRun key s.1 xs
    (r.1, s.2.toList ++ r.2)

/-- Push a sequence through a bounded-history `unique` node; returns
(final seen-set, emitted values in order). -/
def uniqueRunB {α κ : Type} [DecidableEq κ] (h : Nat) (key : α → κ)
    (seen : List κ) : List α → List κ × List α
  | [] => (seen, [])
  | x :: xs =>
    let s := uniqueUpdateB h key seen x
    let r := uniqueRunB h key s.1 xs
    (r.1, s.2.toList ++ r.2)

/-- The mutable state of a `combine_latest` node: `self.last` (one slot per
input, `None` until the input's first arrival) and the per-input ``has this
input ever delivered'' flags (`self.missing` is the set of inputs whose flag
is still false). -/
structure CLState (α : Type) where
  last : List (Option α)
  seen : List Bool
deriving DecidableEq, Repr

/-- `combine_latest.update` (streams.py lines 592-608) for payload types
without `__stream_merge__`: drop the caller from the missing set, overwrite
the caller's latest-value slot, and emit `tuple(self.last)` exactly when no
input is missing any more and the caller is the first-registered input
(index 0).  Returns (new state, emitted tuple if any). -/
def clUpdate {α : Type} (st : CLState α) (i : Nat) (x : α) :
    CLState α × Option (List (Option α)) :=
  let seen := st.seen.set i true
  let last := st.last.set i (some x)
  if seen.all (fun b => b) ∧ i = 0 then
    (⟨last, seen⟩, some last)
  else
    (⟨last, seen⟩, none)

/-- `rate_limit.update` (streams.py lines 502-516), with the wall clock
made explicit: given the observed arrival time `now` and the current
watermark `self.next`, the call sleeps until the old watermark when it
arrives early, emits at `max now next`, and sets the new watermark to
`max(now, next) + interval`.  Returns (emission time, new watermark). -/
def rlUpdate (interval next now : ℚ) : ℚ × ℚ :=
  (max now next, max now next + interval)

/-- Feed a sequence of arrival times through a `rate_limit` node; returns
(final watermark, emission times in order).  The initial watermark is
`self.next = 0`. -/
def rlRun (interval : ℚ) (next : ℚ) : List ℚ → ℚ × List ℚ
  | [] => (next, [])
  | t :: ts =>
    let s := rlUpdate interval next t
    let r := rlRun interval s.2 ts
    (r.1, s.1 :: r.2)

/-- A stream node as the `child` property accessor sees it: its
`self.children` list (the upstream inputs registered at construction). -/
structure StreamNode (α : Type) where
  children : List α
deriving DecidableEq, Repr

/-- `Stream.child` (streams.py lines 78-83): raise
`ValueError("Stream has multiple children")` when `len(self.children) != 1`,
otherwise return `self.children[0]`.  The property getter mutates nothing,
so it returns the node unchanged alongside the outcome. -/
def childAccessor {α : Type} (s : StreamNode α) :
    (Except String α) × StreamNode α :=
  if h : s.children.length = 1 then
    (Except.ok (s.children.get ⟨0, by omega⟩), s)
  else
    (Except.error "Stream has multiple children", s)

/-- `collect.update` (streams.py lines 653-654): append `x` to the cache and
emit nothing.  Returns (new cache, emitted groups — always none). -/
def collectUpdate {α : Type} (cache : List α) (x : α) :
    List α × Option (List α) :=
  (cache ++ [x], none)

/-- `collect.flush` (streams.py lines 656-659): emit `tuple(self.cache)` as
one group (the empty tuple when the cache is empty), then clear the cache.
Returns (new cache, the emitted group). -/
def collectFlush {α : Type} (cache : List α) : List α × List (List α) :=
  ([], [cache])

/-- An externally observable operation on a `collect` node: a value arriving
via `update`, or a `flush` triggered by another stream. -/
inductive CollectOp (α : Type) where
  | push : α → CollectOp α
  | flushOp : CollectOp α
deriving DecidableEq, Repr

/-- Drive a `collect` node through a sequence of operations; returns
(final cache, emitted groups in order). -/
def collectRun {α : Type} (cache : List α) : List (CollectOp α) → List α × List (List α)
  | [] => (cache, [])
  | CollectOp.push x :: ops =>
    let s := collectUpdate cache x
    let r := collectRun s.1 ops
    (r.1, s.2.toList ++ r.2)
  | CollectOp.flushOp :: ops =>
    let s := collectFlush cache
    let r := collectRun s.1 ops
    (r.1, s.2 ++ r.2)

/-- C1 counterexample: with `raw=True` and no seed, the first `update` does
consult `func` (here `probeFunc`, which returns 99 whenever it is handed the
sentinel): the node emits 99 and stores 99, not the incoming value 1 — so
the first call neither emits `x` unchanged nor bypasses `f` for every
configuration of the raw flag. -/
theorem C1_raw_first_call_uses_func :
    scanUpdate true probeFunc AccState.noDefault 1 = (99, AccState.val 99) ∧
      (99 : Nat) ≠ 1 := by
  exact ⟨rfl, by decide⟩

/-- C1 (amended to the non-raw path): with `raw=False` and the `no seed`
sentinel as state, the first `update x` emits `x` unchanged and stores it
without consulting `func`; every later `update x` emits
`func state x` and stores that result; pushing `1, 1, 4` through an unseeded
`scan` of `(p, n) -> p + n` emits `1, 2, 6`. -/
theorem C1_scan_seed_bypass {α : Type} (func : AccState α → α → α) (s x : α) :
    scanUpdate false func AccState.noDefault x = (x, AccState.val x) ∧
    scanUpdate false func (AccState.val s) x =
      (func (AccState.val s) x, AccState.val (func (AccState.val s) x)) ∧
    scanRun false addFunc AccState.noDefault [1, 1, 4] = [1, 2, 6] := by
  refine ⟨rfl, rfl, rfl⟩

/-- C3: `emit` applies each listener's update to the pushed value in
registration order, flattens every list-typed result one level, keeps any
other result as a single element, and removes all `None` results — so the
returned list never contains `None`. -/
theorem C3_emit_order_flatten_filter {α β : Type}
    (listeners : List (β → UpdRes α)) (x : β) :
    emitRun listeners x =
      ((listeners.map (fun f => f x)).map flattenOne).flatten.filter
        (fun e => e.isSome) ∧
    ∀ e ∈ emitRun listeners x, e ≠ none := by
  constructor
  · unfold emitRun
    rw [collectResults_eq_join_map]
  · intro e he
    unfold emitRun at he
    have hs : e.isSome = true := List.of_mem_filter he
    intro hnone
    rw [hnone] at hs
    simp at hs

/-- C9: the `child` accessor returns the single registered upstream input
when `self.children` has exactly one entry, raises
`ValueError("Stream has multiple children")` whenever the number of entries
differs from one, and never changes the node. -/
theorem C9_child_accessor {α : Type} (s : StreamNode α) :
    (childAccessor s).2 = s ∧
    (∀ c, s.children = [c] → (childAccessor s).1 = Except.ok c) ∧
    (s.children.length ≠ 1 →
      (childAccessor s).1 = Except.error "Stream has multiple children") := by
  refine ⟨?_, ?_, ?_⟩
  · unfold childAccessor
    split <;> rfl
  · intro c hc
    unfold childAccessor
    split
    · obtain ⟨children⟩ := s
      simp only at hc
      subst hc
      rfl
    · rename_i h
      rw [hc] at h
      simp at h
  · intro h
    unfold childAccessor
    split
    · exact absurd (by assumption) h
    · rfl

/-- C10: `collect.update` appends to the cache and emits nothing, and
`flush` emits exactly one ordered group holding every currently cached
value — the empty group when the cache is empty — and leaves the cache
empty: driving any cache through any pushes, the pushes emit nothing and
accumulate in order, and a following flush emits that one group and clears
the cache. -/
theorem C10_collect_cache_flush {α : Type} (cache xs : List α) :
    (collectRun cache (xs.map CollectOp.push)).2 = [] ∧
    (collectRun cache (xs.map CollectOp.push)).1 = cache ++ xs ∧
    (collectRun cache (xs.map CollectOp.push ++ [CollectOp.flushOp])).2 =
      [cache ++ xs] ∧
    (collectRun cache (xs.map CollectOp.push ++ [CollectOp.flushOp])).1 = [] := by
  induction xs generalizing cache with
  | nil => simp [collectRun, collectFlush]
  | cons y ys ih =>
    have h := ih (cache ++ [y])
    simp only [List.map_cons, List.cons_append, List.append_eq, collectRun,
      collectUpdate, Option.toList_none, List.nil_append] at h ⊢
    exact ⟨h.1, by rw [h.2.1]; simp, by rw [h.2.2.1]; simp, h.2.2.2⟩

/-- C7: a `combine_latest` arrival from input `i` overwrites slot `i` of the
latest-value list and marks `i` as delivered; nothing is emitted when the
arrival is not from input 0, nothing is emitted while some input has never
delivered, and a tuple of the current latest values is emitted exactly when
every input has delivered and the arrival came from input 0. -/
theorem C7_combine_latest_trigger {α : Type} (st : CLState α) (i : Nat) (x : α) :
    (clUpdate st i x).1.last = st.last.set i (some x) ∧
    (clUpdate st i x).1.seen = st.seen.set i true ∧
    (i ≠ 0 → (clUpdate st i x).2 = none) ∧
    (¬ (st.seen.set i true).all (fun b => b) → (clUpdate st i x).2 = none) ∧
    ((clUpdate st i x).2 = some (st.last.set i (some x)) ↔
      ((st.seen.set i true).all (fun b => b) ∧ i = 0)) := by
  unfold clUpdate
  by_cases hc : (st.seen.set i true).all (fun b => b) ∧ i = 0
  · rw [if_pos hc]
    exact ⟨rfl, rfl, fun hi => absurd hc.2 hi, fun hm => absurd hc.1 hm,
      iff_of_true rfl hc⟩
  · rw [if_neg hc]
    exact ⟨rfl, rfl, fun _ => rfl, fun _ => rfl,
      ⟨fun h => Option.noConfusion h, fun h => absurd h hc⟩⟩

theorem zipRound_reset {α μ : Type} [Inhabited α]
    (sm : Option (α → List α → μ)) (a b : α) :
    zipRound sm ([[], []] : List (List α)) (a, b) =
      ([[], []],
        [match sm, ([a, b] : List α) with
          | some f, t0 :: rest => Sum.inr (f t0 rest)
          | _, tup => Sum.inl tup]) := by
  cases sm <;> rfl

theorem zipRun2_reset {α : Type} {μ : Type} [Inhabited α]
    (ps : List (α × α)) :
    zipRun2 (none : Option (α → List α → μ)) ([[], []] : List (List α)) ps =
      ps.map (fun p => Sum.inl [p.1, p.2]) := by
  induction ps with
  | nil => rfl
  | cons p ps ih =>
    obtain ⟨a, b⟩ := p
    simp only [zipRun2, zipRound_reset, List.map_cons]
    rw [ih]
    rfl

/-- C2 counterexample: the claim is not true for every payload type — for a
payload type exposing `__stream_merge__` (here modelled by `addMerge`),
`zip.update` pops the heads but emits the merged value
`tup[0].__stream_merge__(*tup[1:])` (3 + 7 = 10), not the ordered head
tuple (3, 7). -/
theorem C2_zip_merge_payload_emission :
    (zipUpdate (some addMerge) ([[], [7]] : List (List Nat)) 0 3).2 =
      some (Sum.inr (10 : Nat)) ∧
    (zipUpdate (some addMerge) ([[], [7]] : List (List Nat)) 0 3).2 ≠
      some (Sum.inl ([3, 7] : List Nat)) := by
  exact ⟨rfl, by decide⟩

/-- C2 (amended to payload types without `__stream_merge__`): when an
arrival on input `i` makes that buffer length 1 while every buffer is then
non-empty, `zip` pops the head of every buffer and emits the ordered tuple
of heads (the oldest unconsumed arrival on each input); and feeding one
value to each of 2 inputs, k times over, yields exactly the k tuples
pairing the i-th arrivals per input in order. -/
theorem C2_zip_lockstep_tuple {α μ : Type} [Inhabited α]
    (buffers : List (List α)) (i : Nat) (x : α) (hi : i < buffers.length)
    (hempty : buffers.getD i [] = [])
    (hall : (buffers.set i [x]).all (fun b => !b.isEmpty) = true) :
    zipUpdate (none : Option (α → List α → μ)) buffers i x =
      ((buffers.set i [x]).map List.tail,
        some (Sum.inl ((buffers.set i [x]).map List.headI))) ∧
    ∀ ps : List (α × α),
      zipRun2 (none : Option (α → List α → μ)) [[], []] ps =
        ps.map (fun p => Sum.inl [p.1, p.2]) := by
  constructor
  · have hgetD : (buffers.set i [x]).getD i [] = [x] := by
      rw [List.getD_eq_getElem?_getD, List.getElem?_set_self]
      · rfl
      · exact hi
    simp only [zipUpdate, hempty, List.nil_append, hgetD, hall,
      List.length_cons, List.length_nil]
    rfl
  · exact zipRun2_reset

/-- C2 witness: input 0 of a 2-input zip over a plain payload type receives
3 while input 1 holds an unconsumed 5; the node emits the tuple (3, 5) and
empties both buffers. -/
theorem C2_zip_lockstep_tuple_witness :
    zipUpdate (none : Option (Nat → List Nat → Nat))
        ([[], [5]] : List (List Nat)) 0 3 =
      ((([[], [5]] : List (List Nat)).set 0 [3]).map List.tail,
        some (Sum.inl ((([[], [5]] : List (List Nat)).set 0 [3]).map
          List.headI))) ∧
    ∀ ps : List (Nat × Nat),
      zipRun2 (none : Option (Nat → List Nat → Nat)) [[], []] ps =
        ps.map (fun p => Sum.inl [p.1, p.2]) :=
  C2_zip_lockstep_tuple [[], [5]] 0 3 (by decide) rfl rfl

theorem uniqueRun_fresh_keys {α κ : Type} [DecidableEq κ] (key : α → κ) :
    ∀ (xs : List α) (seen : List κ),
      ((uniqueRun key seen xs).2.map key).Nodup ∧
      ∀ y ∈ (uniqueRun key seen xs).2, key y ∉ seen := by
  intro xs
  induction xs with
  | nil =>
    intro seen
    exact ⟨List.nodup_nil, by intro y hy; cases hy⟩
  | cons x xs ih =>
    intro seen
    by_cases hx : key x ∈ seen
    · have h := ih seen
      simp only [uniqueRun, uniqueUpdate, if_pos hx, Option.toList_none,
        List.nil_append]
      exact h
    · have h := ih (key x :: seen)
      simp only [uniqueRun, uniqueUpdate, if_neg hx, Option.toList_some,
        List.singleton_append, List.map_cons]
      constructor
      · refine List.nodup_cons.2 ⟨?_, h.1⟩
        intro hmem
        obtain ⟨y, hy, hkey⟩ := List.mem_map.1 hmem
        exact h.2 y hy (hkey ▸ List.mem_cons_self _ _)
      · intro y hy
        rcases List.mem_cons.1 hy with hyx | hyr
        · exact hyx ▸ hx
        · exact fun hmem => h.2 y hyr (List.mem_cons_of_mem _ hmem)

/-- C4: with unbounded history, the keys of the values a `unique` node emits
are pairwise distinct over any finite run (a key emits at most once); with
bounded history a key may re-emit after eviction — `unique(history=1)` fed
`1,1,2,2,2,1,3` emits exactly `1,2,1,3`. -/
theorem C4_unique_dedup {α κ : Type} [DecidableEq κ] (key : α → κ)
    (xs : List α) :
    ((uniqueRun key [] xs).2.map key).Nodup ∧
    (uniqueRunB 1 (fun n : Nat => n) [] [1, 1, 2, 2, 2, 1, 3]).2 =
      [1, 2, 1, 3] := by
  exact ⟨(uniqueRun_fresh_keys key xs []).1, rfl⟩

theorem rlRun_chain (interval : ℚ) :
    ∀ (ts : List ℚ) (next : ℚ),
      List.Chain' (fun a b => a + interval ≤ b) (rlRun interval next ts).2 ∧
      ∀ h ∈ (rlRun interval next ts).2.head?, next ≤ h := by
  intro ts
  induction ts with
  | nil =>
    intro next
    exact ⟨List.chain'_nil, by intro h hh; cases hh⟩
  | cons t ts ih =>
    intro next
    have h := ih (max t next + interval)
    simp only [rlRun, rlUpdate]
    constructor
    · refine List.chain'_cons'.2 ⟨?_, h.1⟩
      intro b hb
      exact h.2 b hb
    · intro b hb
      simp only [List.head?_cons, Option.mem_def, Option.some.injEq] at hb
      rw [← hb]
      exact le_max_right t next

theorem rlRun_length (interval : ℚ) :
    ∀ (ts : List ℚ) (next : ℚ), (rlRun interval next ts).2.length = ts.length := by
  intro ts
  induction ts with
  | nil => intro next; rfl
  | cons t ts ih =>
    intro next
    simp only [rlRun, List.length_cons, ih]

/-- C8: every `update` call of a `rate_limit` node produces exactly one
emission (no value is dropped); the watermark after a call at arrival time
`now` equals `max now watermark + interval`; a call arriving before the
current watermark emits at the watermark itself (it suspends until then);
and along any run the emission times satisfy
`previous + interval ≤ next`, i.e. consecutive emissions are spaced at
least `interval` apart. -/
theorem C8_rate_limit_spacing (interval next : ℚ) (ts : List ℚ) :
    (rlRun interval next ts).2.length = ts.length ∧
    (∀ now w : ℚ, (rlUpdate interval w now).2 = max now w + interval) ∧
    (∀ now w : ℚ, now < w → (rlUpdate interval w now).1 = w) ∧
    List.Chain' (fun a b => a + interval ≤ b) (rlRun interval next ts).2 :=
  ⟨rlRun_length interval ts next, fun _ _ => rfl,
    fun _ _ h => max_eq_right h.le, (rlRun_chain interval ts next).1⟩

theorem length_flatten_of_uniform {α : Type} (n : Nat) :
    ∀ gs : List (List α), (∀ g ∈ gs, g.length = n) →
      gs.flatten.length = gs.length * n := by
  intro gs
  induction gs with
  | nil => intro _; simp
  | cons g gs ih =>
    intro h
    simp only [List.flatten_cons, List.length_append, List.length_cons]
    rw [h g (List.mem_cons_self _ _), ih (fun g hg => h g (List.mem_cons_of_mem _ hg))]
    ring

theorem partitionRun_inv {α : Type} (n : Nat) :
    ∀ (xs buf : List α), buf.length < n →
      (partitionRun n buf xs).2.flatten ++ (partitionRun n buf xs).1 =
        buf ++ xs ∧
      (∀ g ∈ (partitionRun n buf xs).2, g.length = n) ∧
      (partitionRun n buf xs).1.length < n := by
  intro xs
  induction xs with
  | nil =>
    intro buf hb
    exact ⟨by simp [partitionRun], by simp [partitionRun], hb⟩
  | cons x xs ih =>
    intro buf hb
    by_cases hfull : (buf ++ [x]).length = n
    · have h := ih [] (by simp at hfull ⊢; omega)
      simp only [partitionRun, partitionUpdate, if_pos hfull,
        Option.toList_some, List.singleton_append]
      refine ⟨?_, ?_, h.2.2⟩
      · rw [List.flatten_cons, List.append_assoc, h.1]
        simp
      · intro g hg
        rcases List.mem_cons.1 hg with rfl | hg'
        · exact hfull
        · exact h.2.1 g hg'
    · have hlt : (buf ++ [x]).length < n := by
        simp only [List.length_append, List.length_cons, List.length_nil] at hfull ⊢
        omega
      have h := ih (buf ++ [x]) hlt
      simp only [partitionRun, partitionUpdate, if_neg hfull,
        Option.toList_none, List.nil_append]
      exact ⟨by rw [h.1]; simp, h.2.1, h.2.2⟩

/-- C5: pushing `m` values through `partition(n)` with `n ≥ 1` emits exactly
`m / n` groups, each of length exactly `n`, whose concatenation followed by
the final buffer reproduces the input in arrival order, and the final
`m % n` values remain in the buffer un-emitted. -/
theorem C5_partition_groups {α : Type} (n : Nat) (hn : 1 ≤ n) (xs : List α) :
    (partitionRun n [] xs).2.length = xs.length / n ∧
    (∀ g ∈ (partitionRun n [] xs).2, g.length = n) ∧
    (partitionRun n [] xs).2.flatten ++ (partitionRun n [] xs).1 = xs ∧
    (partitionRun n [] xs).1.length = xs.length % n := by
  have h := partitionRun_inv n xs [] (by simp only [List.length_nil]; omega)
  have hflat := length_flatten_of_uniform n (partitionRun n [] xs).2 h.2.1
  have hlen : (partitionRun n [] xs).2.length * n +
      (partitionRun n [] xs).1.length = xs.length := by
    have hc := congrArg List.length h.1
    simpa [List.length_append, hflat] using hc
  refine ⟨?_, h.2.1, by simpa using h.1, ?_⟩
  · rw [← hlen, Nat.mul_comm, Nat.mul_add_div hn, Nat.div_eq_of_lt h.2.2,
      Nat.add_zero]
  · rw [← hlen, Nat.mul_comm, Nat.mul_add_mod, Nat.mod_eq_of_lt h.2.2]

/-- C5 witness: `partition(3)` fed `0..9` emits `⌊10/3⌋ = 3` groups of 3
whose concatenation plus the retained buffer (the final `10 mod 3 = 1`
value) is the input. -/
theorem C5_partition_groups_witness :
    (partitionRun 3 ([] : List Nat) [0, 1, 2, 3, 4, 5, 6, 7, 8, 9]).2.length =
      ([0, 1, 2, 3, 4, 5, 6, 7, 8, 9] : List Nat).length / 3 ∧
    (∀ g ∈ (partitionRun 3 ([] : List Nat) [0, 1, 2, 3, 4, 5, 6, 7, 8, 9]).2,
      g.length = 3) ∧
    (partitionRun 3 ([] : List Nat) [0, 1, 2, 3, 4, 5, 6, 7, 8, 9]).2.flatten ++
      (partitionRun 3 ([] : List Nat) [0, 1, 2, 3, 4, 5, 6, 7, 8, 9]).1 =
        [0, 1, 2, 3, 4, 5, 6, 7, 8, 9] ∧
    (partitionRun 3 ([] : List Nat) [0, 1, 2, 3, 4, 5, 6, 7, 8, 9]).1.length =
      ([0, 1, 2, 3, 4, 5, 6, 7, 8, 9] : List Nat).length % 3 :=
  C5_partition_groups 3 (by decide) [0, 1, 2, 3, 4, 5, 6, 7, 8, 9]

theorem slidingRun_append {α : Type} (n : Nat) :
    ∀ (xs : List α) (buf ys : List α),
      slidingRun n buf (xs ++ ys) =
        ((slidingRun n (slidingRun n buf xs).1 ys).1,
          (slidingRun n buf xs).2 ++ (slidingRun n (slidingRun n buf xs).1 ys).2) := by
  intro xs
  induction xs with
  | nil => intro buf ys; simp [slidingRun]
  | cons x xs ih =>
    intro buf ys
    simp only [List.cons_append, slidingRun, List.append_eq]
    rw [ih]
    simp [List.append_assoc]

theorem slidingRun_spec {α : Type} (n : Nat) (hn : 1 ≤ n) (xs : List α) :
    (slidingRun n ([] : List α) xs).1 = xs.drop (xs.length - n) ∧
    (slidingRun n ([] : List α) xs).2 =
      (List.range (xs.length + 1 - n)).map (fun i => (xs.drop i).take n) := by
  induction xs using List.reverseRecOn with
  | nil =>
    constructor
    · simp [slidingRun]
    · simp [slidingRun, Nat.sub_eq_zero_of_le hn]
  | append_singleton xs x ih =>
    rw [slidingRun_append n xs [] [x]]
    have hm : (xs ++ [x]).length = xs.length + 1 := by simp
    have hbuf1 :
        ((slidingRun n ([] : List α) xs).1 ++ [x]).drop
            ((slidingRun n ([] : List α) xs).1.length + 1 - n) =
          (xs ++ [x]).drop (xs.length + 1 - n) := by
      rw [ih.1]
      by_cases hc : xs.length ≤ n
      · have h0 : xs.length - n = 0 := Nat.sub_eq_zero_of_le hc
        rw [h0, List.drop_zero]
      · push_neg at hc
        have hlenB : (xs.drop (xs.length - n)).length = n := by
          rw [List.length_drop]
          omega
        rw [hlenB]
        have h1 : n + 1 - n = 1 := by omega
        rw [h1]
        have hBne : 1 ≤ (xs.drop (xs.length - n)).length := by omega
        rw [List.drop_append_of_le_length hBne, List.drop_drop]
        have h2 : xs.length - n + 1 = xs.length + 1 - n := by omega
        rw [h2]
        have h3 : xs.length + 1 - n ≤ xs.length := by omega
        rw [List.drop_append_of_le_length h3]
    constructor
    · simp only [slidingRun, slidingUpdate]
      rw [hm]
      split <;> simpa using hbuf1
    · simp only [slidingRun, slidingUpdate, List.append_nil]
      rw [ih.2, hm]
      by_cases hend : n ≤ xs.length + 1
      · have hlen1 : ((xs ++ [x]).drop (xs.length + 1 - n)).length = n := by
          rw [List.length_drop, hm]
          omega
        rw [hbuf1, if_pos hlen1]
        simp only [Option.toList_some]
        have hr : xs.length + 1 + 1 - n = (xs.length + 1 - n) + 1 := by omega
        rw [hr, List.range_succ, List.map_append, List.map_singleton]
        congr 1
        · apply List.map_congr_left
          intro i hi
          rw [List.mem_range] at hi
          have hle : i ≤ xs.length := by omega
          rw [List.drop_append_of_le_length hle]
          have hni : n ≤ (xs.drop i).length := by
            rw [List.length_drop]
            omega
          rw [List.take_append_of_le_length hni]
        · rw [List.take_of_length_le (le_of_eq hlen1)]
      · push_neg at hend
        have hlen1 : ((xs ++ [x]).drop (xs.length + 1 - n)).length ≠ n := by
          rw [List.length_drop, hm]
          omega
        rw [hbuf1, if_neg hlen1]
        have h0 : xs.length + 1 - n = 0 := by omega
        have h0' : xs.length + 1 + 1 - n = 0 := by omega
        rw [h0, h0']
        simp

/-- C6 counterexample: `sliding_window(0)` emits one (empty) window on every
push, so a single push yields 1 emitted group, not the `m - n + 1 = 2`
overlapping windows the claim's count promises for `m = 1 ≥ n = 0`. -/
theorem C6_window_count_fails_at_zero :
    ¬ ((slidingRun 0 ([] : List Nat) [5]).2.length = 1 - 0 + 1) := by
  decide

/-- C6 (amended to window sizes n ≥ 1): pushing `xs` through
`sliding_window(n)` emits no group before the n-th push and exactly one
group per push from the n-th on: the emitted groups are precisely
`(xs.drop i).take n` for `i = 0 .. xs.length - n`, i.e. the i-th emitted
group is the n consecutive values ending at push i + n, giving
`m - n + 1` overlapping windows for `m ≥ n` pushes and none for `m < n`. -/
theorem C6_sliding_window_emissions {α : Type} (n : Nat) (hn : 1 ≤ n)
    (xs : List α) :
    (slidingRun n ([] : List α) xs).2 =
      (List.range (xs.length + 1 - n)).map (fun i => (xs.drop i).take n) :=
  (slidingRun_spec n hn xs).2

/-- C6 witness: `sliding_window(3)` fed `0..5` emits the
`6 - 3 + 1 = 4` overlapping windows `(0,1,2), (1,2,3), (2,3,4), (3,4,5)`. -/
theorem C6_sliding_window_emissions_witness :
    (slidingRun 3 ([] : List Nat) [0, 1, 2, 3, 4, 5]).2 =
      (List.range (([0, 1, 2, 3, 4, 5] : List Nat).length + 1 - 3)).map
        (fun i => (([0, 1, 2, 3, 4, 5] : List Nat).drop i).take 3) :=
  C6_sliding_window_emissions 3 (by decide) [0, 1, 2, 3, 4, 5]

end SciStreams
